import Mathlib

/-!
Verification of the quant_trading decision-and-execution core.

Shallow embedding of the risk model of the repository (`risk/MonteCarlo.py`,
`risk/risk_manager.py`) and its two live-trading loops
(`src/trading/live_trader.py`, `src/live_trading/executor.py`), together
with theorems settling the frozen specification claims.

Conventions:
* Prices, quantities and returns are modelled as exact rationals `ℚ`.
* The transcendental functions `exp`, `log`, `sqrt` used by the
  Monte-Carlo simulator are abstract parameters (`MCFuns`); theorems
  assume only the algebraic facts they need (`exp 0 = 1`, `log 1 = 0`,
  `sqrt 0 = 0`), all true of the real functions.
* Pandas/NumPy NaN propagation is modelled by `Option ℚ`: `none` stands
  for a NaN result (pandas `Series.std` with `ddof=1` yields NaN on a
  single sample; `mean` of an empty selection yields NaN).
* The broker is an environment parameter: each loop-iteration function
  takes the broker-reported position and a flag `submitOk` telling
  whether `submit_order` succeeds or raises; a raise skips exactly the
  Python statements that follow the call inside the enclosing `try`.
-/

/-! ## risk/risk_manager.py -/

/-- Python `round` to an integer uses banker rounding (round half to even). -/
def roundHalfEven (x : ℚ) : ℤ :=
  let f := Int.floor x
  let r := x - f
  if r < 1/2 then f
  else if 1/2 < r then f + 1
  else if Even f then f else f + 1

/-- Python `round(x, 6)`: banker rounding to 6 decimal places. -/
def pyRound6 (x : ℚ) : ℚ := (roundHalfEven (x * 1000000) : ℚ) / 1000000

/-- Embeds `RiskManager.__init__(portfolio_value=100.0, max_risk_pct=0.002)`. -/
structure RiskManager where
  portfolio_value : ℚ := 100
  max_risk_pct : ℚ := 2/1000
deriving DecidableEq

/-- Embeds `RiskManager.get_max_allocation`. -/
def RiskManager.get_max_allocation (rm : RiskManager) : ℚ :=
  rm.portfolio_value * rm.max_risk_pct

/-- Embeds `RiskManager.calculate_qty`: returns `0` when `price == 0`, otherwise
`round(allocation / price, 6)`.  The source raises no exception here. -/
def RiskManager.calculate_qty (rm : RiskManager) (price : ℚ) : ℚ :=
  if price = 0 then 0 else pyRound6 (rm.get_max_allocation / price)

/-! ## risk/MonteCarlo.py -/

/-- The ambient NumPy transcendental functions used by `MonteCarlo`,
abstracted: `np.log`, `np.sqrt`, `np.exp`. -/
structure MCFuns where
  logf : ℚ → ℚ
  sqrtf : ℚ → ℚ
  expf : ℚ → ℚ

/-- Embeds `MonteCarlo.__init__(df, price_col, T=1, steps=252, simulations=1000)`:
the price column, horizon `T`, step count `N` and path count `M`. -/
structure MonteCarlo where
  prices : List ℚ
  T : ℚ := 1
  N : ℕ := 252
  M : ℕ := 1000
deriving DecidableEq

/-- Embeds `self.dt = T / steps`. -/
def MonteCarlo.dt (mc : MonteCarlo) : ℚ := mc.T / (mc.N : ℚ)

/-- Embeds `np.log(df[price_col] / df[price_col].shift(1))`, with the undefined
first entry dropped (pandas `mean`/`std` skip the leading NaN). -/
def logReturns (logf : ℚ → ℚ) (prices : List ℚ) : List ℚ :=
  (prices.zip prices.tail).map (fun pq => logf (pq.2 / pq.1))

/-- pandas `Series.mean`: NaN (`none`) on an empty series. -/
def seriesMean (xs : List ℚ) : Option ℚ :=
  if xs.length = 0 then none else some (xs.sum / (xs.length : ℚ))

/-- pandas `Series.std` (sample std, `ddof=1`): NaN (`none`) when fewer
than two observations; otherwise `sqrt(Σ (x - mean)² / (n - 1))`. -/
def seriesStd (sqrtf : ℚ → ℚ) (xs : List ℚ) : Option ℚ :=
  if xs.length ≤ 1 then none
  else some (sqrtf ((xs.map (fun x => (x - xs.sum / (xs.length : ℚ))^2)).sum
      / ((xs.length : ℚ) - 1)))

/-- Embeds `self.mu = log_return.mean() * steps`. -/
def MonteCarlo.mu (mc : MonteCarlo) (fs : MCFuns) : Option ℚ :=
  (seriesMean (logReturns fs.logf mc.prices)).map (· * (mc.N : ℚ))

/-- Embeds `self.sigma = log_return.std() * np.sqrt(steps)`. -/
def MonteCarlo.sigma (mc : MonteCarlo) (fs : MCFuns) : Option ℚ :=
  (seriesStd fs.sqrtf (logReturns fs.logf mc.prices)).map (· * fs.sqrtf (mc.N : ℚ))

/-- Embeds `self.S0 = df[price_col].iloc[-1]`.  On an empty series the
source raises `IndexError` at this line during `__init__` — the object is
never constructed — so every theorem below instantiates a non-empty
series and the `none` value of `getLast?` is never relied on. -/
def MonteCarlo.S0 (mc : MonteCarlo) : Option ℚ :=
  mc.prices.getLast?

/-- One GBM step:
`prev * exp((mu - 0.5*sigma^2) * dt + sigma * sqrt(dt) * z)`. -/
def gbmStep (fs : MCFuns) (m s dt prev z : ℚ) : ℚ :=
  prev * fs.expf ((m - s^2/2) * dt + s * fs.sqrtf dt * z)

/-- The terminal price of one simulated path: the GBM recursion folded
over the per-path sequence of standard-normal draws, seeded at `S0`. -/
def pathTerminal (fs : MCFuns) (m s dt S0 : ℚ) (zs : List ℚ) : ℚ :=
  zs.foldl (fun prev z => gbmStep fs m s dt prev z) S0

/-- Embeds `MonteCarlo.generate_paths` restricted to what the class consumes:
`self.ending_prices = paths[-1]`, one terminal price per simulated path.
`z t j` is the standard-normal draw at step `t` of path `j`.  When `mu`
or `sigma` is NaN every entry is NaN (`none`); when the series is empty
`S0` is undefined. -/
def MonteCarlo.ending_prices (mc : MonteCarlo) (fs : MCFuns) (z : ℕ → ℕ → ℚ) :
    Option (List ℚ) :=
  match mc.mu fs, mc.sigma fs, mc.S0 with
  | some m, some s, some s0 =>
      some ((List.range mc.M).map (fun j =>
        pathTerminal fs m s mc.dt s0 ((List.range mc.N).map (fun t => z t j))))
  | _, _, _ => none

/-- Embeds `pct_loss = (self.S0 - self.ending_prices) / self.S0`. -/
def pctLoss (s0 : ℚ) (ending : List ℚ) : List ℚ :=
  ending.map (fun e => (s0 - e) / s0)

/-- Embeds `np.percentile(·, q)` with the default linear-interpolation method on
the sorted data: `pos = q*(n-1)/100`, result
`a[⌊pos⌋] + (pos - ⌊pos⌋) * (a[⌊pos⌋+1] - a[⌊pos⌋])`. -/
def interpAt (s : List ℚ) (pos : ℚ) : ℚ :=
  s.getD (Int.floor pos).toNat 0
    + (pos - (Int.floor pos : ℚ))
      * (s.getD ((Int.floor pos).toNat + 1) (s.getD (Int.floor pos).toNat 0)
          - s.getD (Int.floor pos).toNat 0)

/-- Embeds `np.percentile(xs, q)` (linear interpolation over the sorted data). -/
def npPercentile (xs : List ℚ) (q : ℚ) : ℚ :=
  interpAt (xs.insertionSort (· ≤ ·)) (q * ((xs.length : ℚ) - 1) / 100)

/-- Embeds `np.mean` of a selection: NaN (`none`) when the selection is empty. -/
def listMean (xs : List ℚ) : Option ℚ :=
  if xs = [] then none else some (xs.sum / (xs.length : ℚ))

/-- Embeds `MonteCarlo.value_at_risk(alpha)`:
`np.percentile((S0 - ending_prices)/S0, alpha*100)`; NaN (`none`) when the
inputs degenerate to NaN. -/
def MonteCarlo.value_at_risk (mc : MonteCarlo) (fs : MCFuns) (z : ℕ → ℕ → ℚ)
    (alpha : ℚ) : Option ℚ :=
  match mc.ending_prices fs z, mc.S0 with
  | some ep, some s0 => some (npPercentile (pctLoss s0 ep) (alpha * 100))
  | _, _ => none

/-- Embeds `MonteCarlo.conditional_value_at_risk(alpha)`:
mean of `pct_loss[pct_loss >= var_threshold]` where `var_threshold` is the
same percentile of the same losses; NaN (`none`) when the tail selection
is empty or the inputs degenerate. -/
def MonteCarlo.conditional_value_at_risk (mc : MonteCarlo) (fs : MCFuns)
    (z : ℕ → ℕ → ℚ) (alpha : ℚ) : Option ℚ :=
  match mc.ending_prices fs z, mc.S0 with
  | some ep, some s0 =>
      let losses := pctLoss s0 ep
      let thr := npPercentile losses (alpha * 100)
      listMean (losses.filter (fun x => decide (thr ≤ x)))
  | _, _ => none

/-! ## src/live_trading/executor.py — `run_live_trading` loop body -/

/-- Order side of a submitted `MarketOrderRequest`. -/
inductive OrderSide | buy | sell
deriving DecidableEq

/-- A `submit_order(MarketOrderRequest(...))` call that the broker accepted. -/
structure OrderReq where
  notional : ℚ
  side : OrderSide
deriving DecidableEq

/-- The `mode` argument of `log_trade` as used by the two loops. -/
inductive TradeMode | live | paper | stop_loss_mode | take_profit_mode | manual_exit_mode
deriving DecidableEq

/-- One `log_trade(symbol, side, qty, price, strategy, mode)` record
(symbol and strategy name omitted: constant per loop instance). -/
structure TradeRec where
  side : OrderSide
  notional : ℚ
  price : ℚ
  mode : TradeMode
deriving DecidableEq

/-- The module-level `open_trade` dict (its non-constant fields). -/
structure OpenTrade where
  notional : ℚ
  entry_price : ℚ
  stop_price : ℚ
  target_price : ℚ
deriving DecidableEq

/-- A broker-reported open position, as used by the executor
(`current_position.market_value`). -/
structure BrokerPosition where
  market_value : ℚ
deriving DecidableEq

/-- The mutable state of the executor loop: the `prev_signal` local
(`None` before the first evaluated iteration), the `open_trade` dict
(empty ↦ `none`) and the append-only trade log written via `log_trade`. -/
structure ExecState where
  prev_signal : Option ℤ
  open_trade : Option OpenTrade
  trade_log : List TradeRec
deriving DecidableEq

/-- One iteration of the `while True` body of `run_live_trading`, after
the data/signal computation: inputs are the latest strategy signal, the
latest close price, the broker-reported position and whether
`submit_order` succeeds (`submitOk = false` models a broker rejection
raised by the call and caught by the per-iteration `except`, which skips
every statement after the failed call).  Returns the new state and the
accepted orders.  Structure mirrors the source exactly: the
de-duplication `continue` comes first, then `prev_signal = last_signal`,
then the stop-loss / take-profit block, then the entry / manual-exit
`elif` chain. -/
def run_live_trading_step (live : Bool) (st : ExecState) (last_signal : ℤ)
    (current_price : ℚ) (current_position : Option BrokerPosition)
    (submitOk : Bool) : ExecState × List OrderReq :=
  if st.prev_signal = some last_signal then (st, [])
  else
    let st1 := { st with prev_signal := some last_signal }
    match current_position, st.open_trade with
    | some _, some ot =>
      if current_price ≤ ot.stop_price then
        if submitOk then
          ({ st1 with
              open_trade := none
              trade_log := st1.trade_log
                ++ [⟨OrderSide.sell, ot.notional, current_price, TradeMode.stop_loss_mode⟩] },
            [⟨ot.notional, OrderSide.sell⟩])
        else (st1, [])
      else if ot.target_price ≤ current_price then
        if submitOk then
          ({ st1 with
              open_trade := none
              trade_log := st1.trade_log
                ++ [⟨OrderSide.sell, ot.notional, current_price, TradeMode.take_profit_mode⟩] },
            [⟨ot.notional, OrderSide.sell⟩])
        else (st1, [])
      else (st1, [])
    | none, _ =>
      if last_signal = 1 then
        let stop_price := current_price * (1 - 2/100)
        let target_price := current_price * (1 + 4/100)
        if submitOk then
          ({ st1 with
              open_trade := some ⟨1000, current_price, stop_price, target_price⟩
              trade_log := st1.trade_log
                ++ [⟨OrderSide.buy, 1000, current_price,
                     if live then TradeMode.live else TradeMode.paper⟩] },
            [⟨1000, OrderSide.buy⟩])
        else (st1, [])
      else (st1, [])
    | some pos, none =>
      if last_signal = -1 then
        if submitOk then
          ({ st1 with
              open_trade := none
              trade_log := st1.trade_log
                ++ [⟨OrderSide.sell, pos.market_value, current_price,
                     TradeMode.manual_exit_mode⟩] },
            [⟨pos.market_value, OrderSide.sell⟩])
        else (st1, [])
      else (st1, [])

/-! ## src/trading/live_trader.py — `LiveTrader` -/

/-- Side of a broker-reported position as read by `LiveTrader`. -/
inductive PosSide | long | short
deriving DecidableEq

/-- A broker-reported open position for the traded symbol. -/
structure AlpacaPosition where
  side : PosSide
deriving DecidableEq

/-- The `LiveTrader` mutable state: `self.last_signal` (initialised 0)
and the cached `self.position`. -/
structure TraderState where
  last_signal : ℤ
  position : Option AlpacaPosition
deriving DecidableEq

/-- A broker call made by `LiveTrader._execute_trade`. -/
inductive TradeAction
  | closePosition
  | submitOrder (qty : ℚ) (side : OrderSide)
deriving DecidableEq

/-- Embeds `LiveTrader._execute_trade(signal, current_price)`.  The broker
position list is an input (`broker_position`); `submitOk = false` models
`submit_order` raising, caught by the own `except` of the method, which skips
the trailing `self.last_signal = signal` assignment (the position cache
was already refreshed before the call).  Returns the new state and the
broker actions that completed. -/
def LiveTrader.execute_trade (rm : RiskManager) (st : TraderState) (signal : ℤ)
    (current_price : ℚ) (broker_position : Option AlpacaPosition)
    (submitOk : Bool) : TraderState × List TradeAction :=
  let qty := rm.calculate_qty current_price
  let st1 : TraderState := { st with position := broker_position }
  if signal = 2 ∧ st.last_signal ≠ 2 then
    let closes := match broker_position with
      | some p => if p.side = PosSide.short then [TradeAction.closePosition] else []
      | none => []
    if submitOk then
      ({ st1 with last_signal := signal }, closes ++ [TradeAction.submitOrder qty OrderSide.buy])
    else (st1, closes)
  else if signal = 1 ∧ st.last_signal ≠ 1 then
    let closes := match broker_position with
      | some p => if p.side = PosSide.long then [TradeAction.closePosition] else []
      | none => []
    if submitOk then
      ({ st1 with last_signal := signal }, closes ++ [TradeAction.submitOrder qty OrderSide.sell])
    else (st1, closes)
  else if signal = 0 ∧ st.last_signal ≠ 0 then
    match broker_position with
    | some _ => ({ st1 with last_signal := signal }, [TradeAction.closePosition])
    | none => ({ st1 with last_signal := signal }, [])
  else
    ({ st1 with last_signal := signal }, [])

/-- A Python exception raised inside the `LiveTrader.start` loop body and
caught by the per-iteration `except` (live_trader.py lines 159-161), which
logs and continues with no action. -/
inductive PyError | indexError | typeError
deriving DecidableEq

/-- Python string subscription as `MonteCarlo.__init__` performs on its
input (`self.df[price_col]`, MonteCarlo.py line 21): a pandas DataFrame
resolves the key through its string-keyed column map; an object exposing
no string-keyed columns raises. -/
def pyGetItem (columns : List (String × List ℚ)) (key : String) :
    Except PyError (List ℚ) :=
  match columns.lookup key with
  | some v => Except.ok v
  | none => Except.error PyError.indexError

/-- The string-keyed columns of the object that
`LiveTrader._risk_management_check` passes to `MonteCarlo`
(live_trader.py line 117): `df[close].values` is a bare NumPy ndarray
and exposes none. -/
def ndarrayColumns : List (String × List ℚ) := []

/-- Embeds `LiveTrader._risk_management_check(df)` as the source executes
it: it constructs `MonteCarlo(df[close].values)`, whose `__init__`
immediately evaluates `self.df[price_col]` on the bare ndarray and raises
— before any VaR/CVaR value or the `cvar <= self.max_cvar_threshold`
comparison (line 120) can exist.  The remainder of the check is the
abstract continuation `onCol`, reachable only if the column lookup had
succeeded. -/
def LiveTrader.risk_management_check_actual (onCol : List ℚ → Bool) :
    Except PyError Bool :=
  (pyGetItem ndarrayColumns "close").map onCol

/-- Python positional-argument binding: calling a function that requires
`need` positional arguments with `given` of them raises `TypeError`
before the function body runs. -/
def pyBindArgs (need given : ℕ) : Except PyError Unit :=
  if given = need then Except.ok () else Except.error PyError.typeError

/-- One iteration of the `while True` body of `LiveTrader.start` as
written in the source, error paths included: any exception from the body
is caught by the per-iteration `except` (lines 159-161), so the iteration
ends with no action and unchanged state.  After the market and data
guards, `_risk_management_check` raises inside `MonteCarlo` (see
`LiveTrader.risk_management_check_actual`); and even on the
counterfactual success path, line 152 calls
`self._execute_trade(latest_signal)` with the required `current_price`
argument missing — `pyBindArgs 2 1` — so `_execute_trade` never runs. -/
def LiveTrader.start_iteration_actual (rm : RiskManager) (st : TraderState)
    (market_open has_data : Bool) (onCol : List ℚ → Bool) (has_signals : Bool)
    (signal : ℤ) (current_price : ℚ) (broker_position : Option AlpacaPosition)
    (submitOk : Bool) : TraderState × List TradeAction :=
  if ¬market_open then (st, [])
  else if ¬has_data then (st, [])
  else
    match LiveTrader.risk_management_check_actual onCol with
    | Except.error _ => (st, [])
    | Except.ok passed =>
      if ¬passed then (st, [])
      else if ¬has_signals then (st, [])
      else
        match pyBindArgs 2 1 with
        | Except.error _ => (st, [])
        | Except.ok _ =>
            LiveTrader.execute_trade rm st signal current_price broker_position submitOk

/-- A concrete valuation of the abstract transcendental functions,
consistent with the facts the theorems assume of the real `log`, `sqrt`
and `exp` (`log 1 = 0`, `sqrt 0 = 0`, `exp 0 = 1`); used to instantiate
closed counterexamples and witnesses. -/
def fsUnit : MCFuns := ⟨fun _ => 0, fun _ => 0, fun _ => 1⟩

/-- A concrete source of standard-normal draws (all zero), used to
instantiate closed counterexamples and witnesses. -/
def zZero : ℕ → ℕ → ℚ := fun _ _ => 0

/-! ## Helper lemmas: list access, sorted lists, linear interpolation -/

theorem List.getD_eq_get_of_lt (l : List ℚ) (n : ℕ) (d : ℚ) (h : n < l.length) :
    l.getD n d = l.get ⟨n, h⟩ := by
  simp [List.getD_eq_getElem?_getD, List.getElem?_eq_getElem h]

theorem List.getD_eq_default_of_le (l : List ℚ) (n : ℕ) (d : ℚ) (h : l.length ≤ n) :
    l.getD n d = d := by
  simp [List.getD_eq_getElem?_getD, List.getElem?_eq_none h]

theorem List.getD_default_irrel (l : List ℚ) (n : ℕ) (d : ℚ) (h : n < l.length) :
    l.getD n d = l.getD n 0 := by
  rw [List.getD_eq_get_of_lt l n d h, List.getD_eq_get_of_lt l n 0 h]

theorem sorted_getD_mono {s : List ℚ} (hs : s.Sorted (· ≤ ·)) {i j : ℕ}
    (hij : i ≤ j) (hj : j < s.length) : s.getD i 0 ≤ s.getD j 0 := by
  rw [List.getD_eq_get_of_lt s i 0 (lt_of_le_of_lt hij hj), List.getD_eq_get_of_lt s j 0 hj]
  exact hs.rel_get_of_le (Fin.mk_le_mk.mpr hij)

theorem le_getD_succ {s : List ℚ} (hs : s.Sorted (· ≤ ·)) {i : ℕ} (hi : i < s.length) :
    s.getD i 0 ≤ s.getD (i + 1) (s.getD i 0) := by
  by_cases h : i + 1 < s.length
  · rw [List.getD_default_irrel s (i + 1) _ h]
    exact sorted_getD_mono hs (Nat.le_succ i) h
  · rw [List.getD_eq_default_of_le s (i + 1) _ (Nat.le_of_not_lt h)]

theorem getD_le_interpAt {s : List ℚ} (hs : s.Sorted (· ≤ ·)) {pos : ℚ}
    (hpos : 0 ≤ pos) (hi : (⌊pos⌋).toNat < s.length) :
    s.getD (⌊pos⌋).toNat 0 ≤ interpAt s pos := by
  have hfrac : 0 ≤ pos - (⌊pos⌋ : ℚ) := by
    have := Int.floor_le pos; linarith
  have hb := le_getD_succ hs hi
  unfold interpAt
  nlinarith [mul_nonneg hfrac (sub_nonneg.mpr hb)]

theorem interpAt_le_getD_succ {s : List ℚ} (hs : s.Sorted (· ≤ ·)) {pos : ℚ}
    (hi : (⌊pos⌋).toNat < s.length) :
    interpAt s pos ≤ s.getD ((⌊pos⌋).toNat + 1) (s.getD (⌊pos⌋).toNat 0) := by
  have hfrac : pos - (⌊pos⌋ : ℚ) < 1 := by
    have := Int.lt_floor_add_one pos; linarith
  have hb := le_getD_succ hs hi
  unfold interpAt
  nlinarith [mul_nonneg (by linarith : (0:ℚ) ≤ 1 - (pos - (⌊pos⌋ : ℚ)))
    (sub_nonneg.mpr hb)]

theorem interpAt_mono {s : List ℚ} (hs : s.Sorted (· ≤ ·)) {p1 p2 : ℚ}
    (h0 : 0 ≤ p1) (h12 : p1 ≤ p2) (h2 : p2 ≤ (s.length : ℚ) - 1) :
    interpAt s p1 ≤ interpAt s p2 := by
  have h02 : (0:ℚ) ≤ p2 := le_trans h0 h12
  have hf1 : (0:ℤ) ≤ ⌊p1⌋ := Int.floor_nonneg.mpr h0
  have hf2 : (0:ℤ) ≤ ⌊p2⌋ := Int.floor_nonneg.mpr h02
  have hfle : ⌊p1⌋ ≤ ⌊p2⌋ := Int.floor_le_floor h12
  have hub : ⌊p2⌋ ≤ (s.length : ℤ) - 1 := by
    have h := Int.floor_le_floor h2
    rwa [show ((s.length : ℚ) - 1) = (((s.length : ℤ) - 1 : ℤ) : ℚ) by push_cast; ring,
      Int.floor_intCast] at h
  have hn : 1 ≤ s.length := by omega
  have hi2 : (⌊p2⌋).toNat < s.length := by omega
  have hile : (⌊p1⌋).toNat ≤ (⌊p2⌋).toNat := by omega
  rcases eq_or_lt_of_le hile with heq | hlt
  · have hfeq : ⌊p1⌋ = ⌊p2⌋ := by omega
    have hi1 : (⌊p1⌋).toNat < s.length := by omega
    have hb := le_getD_succ hs hi1
    unfold interpAt
    rw [hfeq]
    have := mul_le_mul_of_nonneg_right (by linarith : p1 - (⌊p2⌋ : ℚ) ≤ p2 - (⌊p2⌋ : ℚ))
      (sub_nonneg.mpr (hfeq ▸ hb))
    linarith
  · have hi1 : (⌊p1⌋).toNat < s.length := lt_trans hlt hi2
    have hsucc : (⌊p1⌋).toNat + 1 < s.length := by omega
    have step1 : interpAt s p1 ≤ s.getD ((⌊p1⌋).toNat + 1) 0 := by
      have h := interpAt_le_getD_succ hs hi1
      rwa [List.getD_default_irrel s ((⌊p1⌋).toNat + 1) _ hsucc] at h
    have step2 : s.getD ((⌊p1⌋).toNat + 1) 0 ≤ s.getD ((⌊p2⌋).toNat) 0 :=
      sorted_getD_mono hs (by omega) hi2
    have step3 : s.getD ((⌊p2⌋).toNat) 0 ≤ interpAt s p2 :=
      getD_le_interpAt hs h02 hi2
    linarith

theorem interpAt_le_max {s : List ℚ} (hs : s.Sorted (· ≤ ·)) {pos : ℚ}
    (h0 : 0 ≤ pos) (h1 : pos ≤ (s.length : ℚ) - 1) :
    interpAt s pos ≤ s.getD (s.length - 1) 0 := by
  have hf : (0:ℤ) ≤ ⌊pos⌋ := Int.floor_nonneg.mpr h0
  have hub : ⌊pos⌋ ≤ (s.length : ℤ) - 1 := by
    have h := Int.floor_le_floor h1
    rwa [show ((s.length : ℚ) - 1) = (((s.length : ℤ) - 1 : ℤ) : ℚ) by push_cast; ring,
      Int.floor_intCast] at h
  have hn : 1 ≤ s.length := by omega
  have hi : (⌊pos⌋).toNat < s.length := by omega
  have hstep := @interpAt_le_getD_succ s hs pos hi
  by_cases hsucc : (⌊pos⌋).toNat + 1 < s.length
  · have h2 : s.getD ((⌊pos⌋).toNat + 1) (s.getD (⌊pos⌋).toNat 0)
        = s.getD ((⌊pos⌋).toNat + 1) 0 :=
      List.getD_default_irrel s _ _ hsucc
    have h3 : s.getD ((⌊pos⌋).toNat + 1) 0 ≤ s.getD (s.length - 1) 0 :=
      sorted_getD_mono hs (by omega) (by omega)
    linarith [hstep, h2 ▸ hstep]
  · have h2 : s.getD ((⌊pos⌋).toNat + 1) (s.getD (⌊pos⌋).toNat 0)
        = s.getD (⌊pos⌋).toNat 0 :=
      List.getD_eq_default_of_le s _ _ (by omega)
    have h3 : s.getD ((⌊pos⌋).toNat) 0 ≤ s.getD (s.length - 1) 0 :=
      sorted_getD_mono hs (by omega) (by omega)
    rw [h2] at hstep
    linarith

theorem npPercentile_mono {xs : List ℚ} (hne : xs ≠ []) {q1 q2 : ℚ}
    (h0 : 0 ≤ q1) (h12 : q1 ≤ q2) (h100 : q2 ≤ 100) :
    npPercentile xs q1 ≤ npPercentile xs q2 := by
  have hs : (xs.insertionSort (· ≤ ·)).Sorted (· ≤ ·) := List.sorted_insertionSort _ xs
  have hlen : (xs.insertionSort (· ≤ ·)).length = xs.length := List.length_insertionSort _ xs
  have hn : 1 ≤ xs.length := List.length_pos.mpr hne
  have hnq : (1:ℚ) ≤ (xs.length : ℚ) := by exact_mod_cast hn
  have hc : (0:ℚ) ≤ ((xs.length : ℚ) - 1) / 100 := by linarith
  unfold npPercentile
  apply interpAt_mono hs
  · have := mul_nonneg h0 hc
    calc (0:ℚ) ≤ q1 * (((xs.length : ℚ) - 1) / 100) := this
    _ = q1 * ((xs.length : ℚ) - 1) / 100 := by ring
  · have := mul_le_mul_of_nonneg_right h12 hc
    calc q1 * ((xs.length : ℚ) - 1) / 100 = q1 * (((xs.length : ℚ) - 1) / 100) := by ring
    _ ≤ q2 * (((xs.length : ℚ) - 1) / 100) := this
    _ = q2 * ((xs.length : ℚ) - 1) / 100 := by ring
  · rw [hlen]
    nlinarith

theorem npPercentile_le_max {xs : List ℚ} (hne : xs ≠ []) {q : ℚ}
    (h0 : 0 ≤ q) (h100 : q ≤ 100) :
    ∃ m ∈ xs, npPercentile xs q ≤ m := by
  have hs : (xs.insertionSort (· ≤ ·)).Sorted (· ≤ ·) := List.sorted_insertionSort _ xs
  have hlen : (xs.insertionSort (· ≤ ·)).length = xs.length := List.length_insertionSort _ xs
  have hn : 1 ≤ xs.length := List.length_pos.mpr hne
  have hnq : (1:ℚ) ≤ (xs.length : ℚ) := by exact_mod_cast hn
  have hlt : xs.length - 1 < (xs.insertionSort (· ≤ ·)).length := by omega
  refine ⟨(xs.insertionSort (· ≤ ·)).getD (xs.length - 1) 0, ?_, ?_⟩
  · rw [List.getD_eq_get_of_lt _ _ _ hlt]
    have := List.get_mem (xs.insertionSort (· ≤ ·)) (xs.length - 1) hlt
    exact (List.mem_insertionSort _).mp this
  · unfold npPercentile
    have h := @interpAt_le_max (xs.insertionSort (· ≤ ·)) hs
      (q * ((xs.length : ℚ) - 1) / 100) (by nlinarith) (by rw [hlen]; nlinarith)
    rwa [hlen] at h

theorem le_listMean_of_forall_le {xs : List ℚ} {t c : ℚ} (hne : xs ≠ [])
    (h : ∀ x ∈ xs, t ≤ x) (hmean : listMean xs = some c) : t ≤ c := by
  unfold listMean at hmean
  rw [if_neg hne] at hmean
  have hc : c = xs.sum / (xs.length : ℚ) := (Option.some_injective _ hmean).symm
  have hlen : (0:ℚ) < (xs.length : ℚ) := by
    exact_mod_cast List.length_pos.mpr hne
  rw [hc, le_div_iff hlen]
  have hsum := List.card_nsmul_le_sum xs t h
  rw [nsmul_eq_mul] at hsum
  linarith

/-! ## Helper lemmas: constant price series and degenerate inputs -/

theorem zip_replicate_succ (p : ℚ) : ∀ n : ℕ,
    (List.replicate (n + 1) p).zip (List.replicate n p) = List.replicate n (p, p)
  | 0 => rfl
  | n + 1 => by
    rw [List.replicate_succ p (n + 1), List.replicate_succ p n, List.zip_cons_cons,
      ← List.replicate_succ, zip_replicate_succ p n, List.replicate_succ]

theorem logReturns_replicate (logf : ℚ → ℚ) (n : ℕ) (p : ℚ) :
    logReturns logf (List.replicate n p) = List.replicate (n - 1) (logf (p / p)) := by
  cases n with
  | zero => rfl
  | succ m =>
    unfold logReturns
    rw [List.replicate_succ, List.tail_cons, ← List.replicate_succ, zip_replicate_succ,
      List.map_replicate, Nat.add_sub_cancel]

theorem getLast?_replicate (p : ℚ) : ∀ n : ℕ, 0 < n →
    (List.replicate n p).getLast? = some p
  | 1, _ => rfl
  | n + 2, _ => by
    rw [List.replicate_succ, List.replicate_succ, List.getLast?_cons_cons,
      ← List.replicate_succ, getLast?_replicate p (n + 1) (Nat.succ_pos n)]

theorem pathTerminal_zero_drift (fs : MCFuns) (dt : ℚ) (hexp : fs.expf 0 = 1) :
    ∀ (zs : List ℚ) (S0 : ℚ), pathTerminal fs 0 0 dt S0 zs = S0
  | [], _ => rfl
  | z :: zs, S0 => by
    have hstep : gbmStep fs 0 0 dt S0 z = S0 := by
      unfold gbmStep
      have harg : ((0:ℚ) - 0^2/2) * dt + 0 * fs.sqrtf dt * z = 0 := by ring
      rw [harg, hexp, mul_one]
    unfold pathTerminal at *
    rw [List.foldl_cons, hstep]
    exact pathTerminal_zero_drift fs dt hexp zs S0

theorem getD_zero_of_all_zero {s : List ℚ} (h : ∀ x ∈ s, x = 0) (i : ℕ) :
    s.getD i 0 = 0 := by
  by_cases hi : i < s.length
  · rw [List.getD_eq_get_of_lt s i 0 hi]
    exact h _ (List.get_mem s i hi)
  · exact List.getD_eq_default_of_le s i 0 (Nat.le_of_not_lt hi)

theorem npPercentile_all_zero {xs : List ℚ} (h : ∀ x ∈ xs, x = 0) (q : ℚ) :
    npPercentile xs q = 0 := by
  have hz : ∀ x ∈ xs.insertionSort (· ≤ ·), x = 0 := by
    intro x hx
    exact h x ((List.mem_insertionSort _).mp hx)
  unfold npPercentile interpAt
  rw [getD_zero_of_all_zero hz, getD_zero_of_all_zero hz]
  ring

theorem pctLoss_replicate (p : ℚ) (M : ℕ) :
    pctLoss p (List.replicate M p) = List.replicate M 0 := by
  unfold pctLoss
  rw [List.map_replicate, sub_self, zero_div]

theorem listMean_replicate_zero {M : ℕ} (hM : 1 ≤ M) :
    listMean (List.replicate M (0:ℚ)) = some 0 := by
  unfold listMean
  rw [if_neg (List.ne_nil_of_length_pos (by rw [List.length_replicate]; omega)),
    List.sum_replicate, smul_zero, zero_div]

theorem ending_prices_replicate (fs : MCFuns) (z : ℕ → ℕ → ℚ) (T : ℚ) (N M n : ℕ)
    (p : ℚ) (hp : p ≠ 0) (hn : 3 ≤ n) (hlog : fs.logf 1 = 0) (hsqrt : fs.sqrtf 0 = 0)
    (hexp : fs.expf 0 = 1) :
    (MonteCarlo.mk (List.replicate n p) T N M).ending_prices fs z
      = some (List.replicate M p) := by
  have hret : logReturns fs.logf (List.replicate n p) = List.replicate (n - 1) 0 := by
    rw [logReturns_replicate, div_self hp, hlog]
  have hlen : (List.replicate (n - 1) (0:ℚ)).length = n - 1 := List.length_replicate _ _
  have hmu : (MonteCarlo.mk (List.replicate n p) T N M).mu fs = some 0 := by
    unfold MonteCarlo.mu seriesMean
    rw [hret, if_neg (by rw [hlen]; omega), List.sum_replicate, smul_zero]
    simp
  have hsigma : (MonteCarlo.mk (List.replicate n p) T N M).sigma fs = some 0 := by
    unfold MonteCarlo.sigma seriesStd
    rw [hret, if_neg (by rw [hlen]; omega), List.sum_replicate, smul_zero,
      List.map_replicate]
    norm_num [List.sum_replicate, hsqrt]
  have hS0 : (MonteCarlo.mk (List.replicate n p) T N M).S0 = some p := by
    unfold MonteCarlo.S0
    exact getLast?_replicate p n (by omega)
  unfold MonteCarlo.ending_prices
  simp only [hmu, hsigma, hS0]
  have hPT : ∀ j ∈ List.range M,
      pathTerminal fs 0 0 (MonteCarlo.mk (List.replicate n p) T N M).dt p
          ((List.range N).map (fun t => z t j))
        = (fun _ => p) j :=
    fun j _ => pathTerminal_zero_drift fs _ hexp _ p
  rw [List.map_congr_left hPT, List.map_const', List.length_range]

theorem value_at_risk_eq {mc : MonteCarlo} {fs : MCFuns} {z : ℕ → ℕ → ℚ}
    {ep : List ℚ} {s0 : ℚ} (hep : mc.ending_prices fs z = some ep)
    (hs0 : mc.S0 = some s0) (alpha : ℚ) :
    mc.value_at_risk fs z alpha = some (npPercentile (pctLoss s0 ep) (alpha * 100)) := by
  unfold MonteCarlo.value_at_risk
  rw [hep, hs0]

theorem conditional_value_at_risk_eq {mc : MonteCarlo} {fs : MCFuns} {z : ℕ → ℕ → ℚ}
    {ep : List ℚ} {s0 : ℚ} (hep : mc.ending_prices fs z = some ep)
    (hs0 : mc.S0 = some s0) (alpha : ℚ) :
    mc.conditional_value_at_risk fs z alpha
      = listMean ((pctLoss s0 ep).filter
          (fun x => decide (npPercentile (pctLoss s0 ep) (alpha * 100) ≤ x))) := by
  unfold MonteCarlo.conditional_value_at_risk
  rw [hep, hs0]

theorem value_at_risk_some_inv {mc : MonteCarlo} {fs : MCFuns} {z : ℕ → ℕ → ℚ}
    {alpha v : ℚ} (h : mc.value_at_risk fs z alpha = some v) :
    ∃ ep s0, mc.ending_prices fs z = some ep ∧ mc.S0 = some s0 ∧
      v = npPercentile (pctLoss s0 ep) (alpha * 100) := by
  unfold MonteCarlo.value_at_risk at h
  rcases hep : mc.ending_prices fs z with _ | ep <;> rw [hep] at h <;>
    rcases hs0 : mc.S0 with _ | s0 <;> rw [hs0] at h
  · cases h
  · cases h
  · cases h
  · exact ⟨ep, s0, rfl, rfl, (Option.some_injective _ h).symm⟩

theorem cvar_some_inv {mc : MonteCarlo} {fs : MCFuns} {z : ℕ → ℕ → ℚ}
    {alpha c : ℚ} (h : mc.conditional_value_at_risk fs z alpha = some c) :
    ∃ ep s0, mc.ending_prices fs z = some ep ∧ mc.S0 = some s0 ∧
      listMean ((pctLoss s0 ep).filter
          (fun x => decide (npPercentile (pctLoss s0 ep) (alpha * 100) ≤ x)))
        = some c := by
  unfold MonteCarlo.conditional_value_at_risk at h
  rcases hep : mc.ending_prices fs z with _ | ep <;> rw [hep] at h <;>
    rcases hs0 : mc.S0 with _ | s0 <;> rw [hs0] at h
  · cases h
  · cases h
  · cases h
  · exact ⟨ep, s0, rfl, rfl, h⟩

theorem ending_prices_length {mc : MonteCarlo} {fs : MCFuns} {z : ℕ → ℕ → ℚ}
    {ep : List ℚ} (h : mc.ending_prices fs z = some ep) : ep.length = mc.M := by
  unfold MonteCarlo.ending_prices at h
  rcases hmu : mc.mu fs with _ | m <;> rw [hmu] at h <;>
    rcases hsig : mc.sigma fs with _ | s <;> rw [hsig] at h <;>
    rcases hs0 : mc.S0 with _ | s0 <;> rw [hs0] at h
  · cases h
  · cases h
  · cases h
  · cases h
  · cases h
  · cases h
  · cases h
  · rw [← Option.some_injective _ h, List.length_map, List.length_range]

/-! ## Claims about the risk model -/

/-- C5, counterexample: with exactly 2 equal observations (the claim
allows any series of at least 2), pandas `std(ddof=1)` of the single log
return is NaN, so the code returns NaN (`none`) — not `VaR = CVaR = 0` as
the claim states. -/
theorem C5_counterexample :
    (MonteCarlo.mk [100, 100] 1 252 1000).value_at_risk fsUnit zZero (1/20) = none ∧
    (MonteCarlo.mk [100, 100] 1 252 1000).conditional_value_at_risk fsUnit zZero (1/20)
      = none ∧
    (none : Option ℚ) ≠ some 0 := by
  refine ⟨rfl, rfl, by simp⟩

/-- C5, amended: for a constant price series of at least **3**
observations (so the sample std is defined), any horizon, at least one
step, at least one path and any confidence level in `[0,1]`, the model
returns `VaR = 0` and `CVaR = 0`. -/
theorem C5_zero_variance (fs : MCFuns) (z : ℕ → ℕ → ℚ) (alpha T : ℚ) (N M n : ℕ)
    (p : ℚ) (hp : p ≠ 0) (hn : 3 ≤ n) (hN : 1 ≤ N) (hM : 1 ≤ M)
    (ha0 : 0 ≤ alpha) (ha1 : alpha ≤ 1)
    (hlog : fs.logf 1 = 0) (hsqrt : fs.sqrtf 0 = 0) (hexp : fs.expf 0 = 1) :
    (MonteCarlo.mk (List.replicate n p) T N M).value_at_risk fs z alpha = some 0 ∧
    (MonteCarlo.mk (List.replicate n p) T N M).conditional_value_at_risk fs z alpha
      = some 0 := by
  have hep := ending_prices_replicate fs z T N M n p hp hn hlog hsqrt hexp
  have hS0 : (MonteCarlo.mk (List.replicate n p) T N M).S0 = some p := by
    unfold MonteCarlo.S0
    exact getLast?_replicate p n (by omega)
  have hzero : ∀ x ∈ pctLoss p (List.replicate M p), x = 0 := by
    rw [pctLoss_replicate]
    exact fun x hx => List.eq_of_mem_replicate hx
  constructor
  · rw [value_at_risk_eq hep hS0, npPercentile_all_zero hzero]
  · rw [conditional_value_at_risk_eq hep hS0, pctLoss_replicate]
    have hzero2 : ∀ x ∈ List.replicate M (0:ℚ), x = 0 :=
      fun x hx => List.eq_of_mem_replicate hx
    simp only [npPercentile_all_zero hzero2]
    rw [List.filter_eq_self.mpr
      (fun a ha => by rw [List.eq_of_mem_replicate ha]; simp)]
    exact listMean_replicate_zero hM

/-- C5, witness for the amended theorem at a concrete input. -/
theorem C5_witness :
    (MonteCarlo.mk (List.replicate 3 (100:ℚ)) 1 1 1).value_at_risk fsUnit zZero (1/20)
      = some 0 ∧
    (MonteCarlo.mk (List.replicate 3 (100:ℚ)) 1 1 1).conditional_value_at_risk fsUnit
        zZero (1/20)
      = some 0 :=
  C5_zero_variance fsUnit zZero (1/20) 1 1 1 3 100 (by norm_num) (by norm_num)
    (by norm_num) (by norm_num) (by norm_num) (by norm_num) rfl rfl rfl

/-- C6, counterexample: with a single price point the code silently
returns NaN (`none`) — it raises no `InsufficientDataError` (no such
error path exists); and with zero volatility (3 equal prices) it returns
an ordinary number (`some 0`) — it raises no `DegenerateInputError`. -/
theorem C6_counterexample :
    (MonteCarlo.mk [100] 1 1 1).value_at_risk fsUnit zZero (1/20) = none ∧
    (MonteCarlo.mk [100, 100, 100] 1 1 1).sigma fsUnit = some 0 ∧
    (MonteCarlo.mk [100, 100, 100] 1 1 1).value_at_risk fsUnit zZero (1/20) = some 0 := by
  refine ⟨rfl, ?_, ?_⟩
  · norm_num [MonteCarlo.sigma, seriesStd, logReturns, fsUnit]
  · norm_num [MonteCarlo.value_at_risk, MonteCarlo.ending_prices, MonteCarlo.mu,
      MonteCarlo.sigma, MonteCarlo.S0, MonteCarlo.dt, seriesStd, seriesMean, logReturns,
      fsUnit, zZero, pathTerminal, gbmStep, pctLoss, npPercentile, interpAt,
      List.range_succ, List.insertionSort, List.orderedInsert]

/-- C6, amended: the risk model raises none of the claimed typed errors.
With exactly 1 price point — the only sub-2 length that survives
construction, since 0 points raise `IndexError` at `iloc[-1]` inside
`__init__` — the VaR is silently NaN (`none`); with NaN volatility on a
constructible (non-empty) series the VaR is NaN; (with zero volatility it
is an ordinary number, see the third conjunct of the counterexample
theorem). -/
theorem C6_degenerate_inputs (mc : MonteCarlo) (fs : MCFuns) (z : ℕ → ℕ → ℚ)
    (alpha : ℚ) :
    (mc.prices.length = 1 → mc.value_at_risk fs z alpha = none) ∧
    (mc.prices ≠ [] → mc.sigma fs = none → mc.value_at_risk fs z alpha = none) := by
  constructor
  · intro h2
    have hlr : (logReturns fs.logf mc.prices).length = 0 := by
      unfold logReturns
      rw [List.length_map, List.length_zip, List.length_tail]
      omega
    have hmu : mc.mu fs = none := by
      unfold MonteCarlo.mu seriesMean
      rw [if_pos hlr]
      rfl
    unfold MonteCarlo.value_at_risk MonteCarlo.ending_prices
    simp only [hmu]
    try rcases mc.S0 with _ | s0 <;> rfl
  · intro _ hsig
    unfold MonteCarlo.value_at_risk MonteCarlo.ending_prices
    simp only [hsig]
    try rcases mc.mu fs with _ | m <;> rcases mc.S0 with _ | s0 <;> rfl

/-- C6, witness for the amended theorem at a concrete input. -/
theorem C6_witness :
    (MonteCarlo.mk [100] 1 252 1000).value_at_risk fsUnit zZero (1/20) = none :=
  (C6_degenerate_inputs (MonteCarlo.mk [100] 1 252 1000) fsUnit zZero (1/20)).1 rfl

/-- C8: over the same generated paths (same draws `z`, hence the same
simulated loss distribution), the VaR estimate is monotone non-decreasing
in the confidence level `alpha`. -/
theorem C8_var_monotone (mc : MonteCarlo) (fs : MCFuns) (z : ℕ → ℕ → ℚ)
    {a1 a2 v1 v2 : ℚ} (hM : 1 ≤ mc.M) (h0 : 0 ≤ a1) (h12 : a1 ≤ a2) (h1 : a2 ≤ 1)
    (hv1 : mc.value_at_risk fs z a1 = some v1)
    (hv2 : mc.value_at_risk fs z a2 = some v2) : v1 ≤ v2 := by
  obtain ⟨ep, s0, hep, hs0, hveq1⟩ := value_at_risk_some_inv hv1
  obtain ⟨ep2, s02, hep2, hs02, hveq2⟩ := value_at_risk_some_inv hv2
  rw [hep] at hep2
  rw [hs0] at hs02
  have heq := Option.some_injective _ hep2
  have hsq := Option.some_injective _ hs02
  subst heq hsq
  subst hveq1 hveq2
  have hlen : ep.length = mc.M := ending_prices_length hep
  have hne : pctLoss s0 ep ≠ [] := by
    apply List.ne_nil_of_length_pos
    unfold pctLoss
    rw [List.length_map, hlen]
    omega
  exact npPercentile_mono hne (by linarith) (by linarith) (by linarith)

/-- C8, witness at a concrete input. -/
theorem C8_witness :
    (MonteCarlo.mk [100, 100, 100] 1 1 1).value_at_risk fsUnit zZero (1/100) = some 0 ∧
    (MonteCarlo.mk [100, 100, 100] 1 1 1).value_at_risk fsUnit zZero (1/2) = some 0 ∧
    (0:ℚ) ≤ 0 := by
  have h1 : (MonteCarlo.mk [100, 100, 100] 1 1 1).value_at_risk fsUnit zZero (1/100)
      = some 0 := by
    norm_num [MonteCarlo.value_at_risk, MonteCarlo.ending_prices, MonteCarlo.mu,
      MonteCarlo.sigma, MonteCarlo.S0, MonteCarlo.dt, seriesStd, seriesMean, logReturns,
      fsUnit, zZero, pathTerminal, gbmStep, pctLoss, npPercentile, interpAt,
      List.range_succ, List.insertionSort, List.orderedInsert]
  have h2 : (MonteCarlo.mk [100, 100, 100] 1 1 1).value_at_risk fsUnit zZero (1/2)
      = some 0 := by
    norm_num [MonteCarlo.value_at_risk, MonteCarlo.ending_prices, MonteCarlo.mu,
      MonteCarlo.sigma, MonteCarlo.S0, MonteCarlo.dt, seriesStd, seriesMean, logReturns,
      fsUnit, zZero, pathTerminal, gbmStep, pctLoss, npPercentile, interpAt,
      List.range_succ, List.insertionSort, List.orderedInsert]
  exact ⟨h1, h2, C8_var_monotone (MonteCarlo.mk [100, 100, 100] 1 1 1) fsUnit zZero
    (by norm_num) (by norm_num) (by norm_num) (by norm_num) h1 h2⟩

/-- C10: over the same terminal prices, `CVaR ≥ VaR`: the tail selection
`{L : L ≥ VaR}` contains the maximal loss, hence is non-empty, and its
mean is at least the VaR threshold. -/
theorem C10_cvar_ge_var (mc : MonteCarlo) (fs : MCFuns) (z : ℕ → ℕ → ℚ)
    {alpha v c : ℚ} (hM : 1 ≤ mc.M) (h0 : 0 < alpha) (h1 : alpha < 1)
    (hv : mc.value_at_risk fs z alpha = some v)
    (hc : mc.conditional_value_at_risk fs z alpha = some c) : v ≤ c := by
  obtain ⟨ep, s0, hep, hs0, hveq⟩ := value_at_risk_some_inv hv
  obtain ⟨ep2, s02, hep2, hs02, hmean⟩ := cvar_some_inv hc
  rw [hep] at hep2
  rw [hs0] at hs02
  have heq := Option.some_injective _ hep2
  have hsq := Option.some_injective _ hs02
  subst heq hsq
  have hlen : ep.length = mc.M := ending_prices_length hep
  have hne : pctLoss s0 ep ≠ [] := by
    apply List.ne_nil_of_length_pos
    unfold pctLoss
    rw [List.length_map, hlen]
    omega
  subst hveq
  apply le_listMean_of_forall_le ?_ ?_ hmean
  · obtain ⟨m, hm, hthr⟩ := @npPercentile_le_max (pctLoss s0 ep) hne
      (alpha * 100) (by linarith) (by linarith)
    exact List.ne_nil_of_mem (List.mem_filter.mpr ⟨hm, decide_eq_true hthr⟩)
  · intro x hx
    exact of_decide_eq_true (List.mem_filter.mp hx).2

/-- C10, witness at a concrete input. -/
theorem C10_witness :
    (MonteCarlo.mk [100, 100, 100] 1 1 1).value_at_risk fsUnit zZero (1/2) = some 0 ∧
    (MonteCarlo.mk [100, 100, 100] 1 1 1).conditional_value_at_risk fsUnit zZero (1/2)
      = some 0 ∧
    (0:ℚ) ≤ 0 := by
  have h1 : (MonteCarlo.mk [100, 100, 100] 1 1 1).value_at_risk fsUnit zZero (1/2)
      = some 0 := by
    norm_num [MonteCarlo.value_at_risk, MonteCarlo.ending_prices, MonteCarlo.mu,
      MonteCarlo.sigma, MonteCarlo.S0, MonteCarlo.dt, seriesStd, seriesMean, logReturns,
      fsUnit, zZero, pathTerminal, gbmStep, pctLoss, npPercentile, interpAt,
      List.range_succ, List.insertionSort, List.orderedInsert]
  have h2 : (MonteCarlo.mk [100, 100, 100] 1 1 1).conditional_value_at_risk fsUnit zZero
      (1/2) = some 0 := by
    norm_num [MonteCarlo.conditional_value_at_risk, MonteCarlo.ending_prices,
      MonteCarlo.mu, MonteCarlo.sigma, MonteCarlo.S0, MonteCarlo.dt, seriesStd,
      seriesMean, logReturns, fsUnit, zZero, pathTerminal, gbmStep, pctLoss, listMean,
      npPercentile, interpAt, List.range_succ, List.insertionSort, List.orderedInsert]
  exact ⟨h1, h2, C10_cvar_ge_var (MonteCarlo.mk [100, 100, 100] 1 1 1) fsUnit zZero
    (by norm_num) (by norm_num) (by norm_num) h1 h2⟩

/-! ## Claims about the position sizer -/

theorem roundHalfEven_nonneg {x : ℚ} (hx : 0 ≤ x) : 0 ≤ roundHalfEven x := by
  simp only [roundHalfEven]
  have hf : (0:ℤ) ≤ ⌊x⌋ := Int.floor_nonneg.mpr hx
  split_ifs <;> omega

theorem pyRound6_nonneg {x : ℚ} (hx : 0 ≤ x) : 0 ≤ pyRound6 x := by
  unfold pyRound6
  have h := @roundHalfEven_nonneg (x * 1000000) (by positivity)
  have hq : (0:ℚ) ≤ (roundHalfEven (x * 1000000) : ℚ) := by exact_mod_cast h
  exact div_nonneg hq (by norm_num)

/-- C9, counterexample: `calculate_qty` raises nothing for
non-positive prices: it returns the number `0` at `price = 0` and a
negative quantity at `price = -50` — there is no `InvalidPriceError`. -/
theorem C9_counterexample :
    RiskManager.calculate_qty ⟨100, 2/1000⟩ 0 = 0 ∧
    RiskManager.calculate_qty ⟨100, 2/1000⟩ (-50) = -(1/250) := by
  constructor
  · norm_num [RiskManager.calculate_qty]
  · norm_num [RiskManager.calculate_qty, RiskManager.get_max_allocation, pyRound6,
      roundHalfEven]

/-- C9, amended: the quantity computation is total — it returns `0` when
`price == 0` and `round(allocation/price, 6)` for every other price
(including negative ones); for positive price and non-negative allocation
the result is a non-negative quantity.  No error is ever raised. -/
theorem C9_qty_total (rm : RiskManager) (price : ℚ) :
    (price = 0 → rm.calculate_qty price = 0) ∧
    (price ≠ 0 → rm.calculate_qty price
        = pyRound6 (rm.portfolio_value * rm.max_risk_pct / price)) ∧
    (0 < price → 0 ≤ rm.portfolio_value * rm.max_risk_pct →
      0 ≤ rm.calculate_qty price) := by
  refine ⟨?_, ?_, ?_⟩
  · intro h
    simp [RiskManager.calculate_qty, h]
  · intro h
    simp [RiskManager.calculate_qty, RiskManager.get_max_allocation, h]
  · intro hp halloc
    have h : rm.calculate_qty price = pyRound6 (rm.get_max_allocation / price) := by
      simp [RiskManager.calculate_qty, ne_of_gt hp]
    rw [h]
    exact pyRound6_nonneg (div_nonneg (by rwa [RiskManager.get_max_allocation])
      (le_of_lt hp))

/-- C9, witness for the amended theorem at a concrete input. -/
theorem C9_witness :
    RiskManager.calculate_qty ⟨100, 2/1000⟩ 50 = pyRound6 (100 * (2/1000) / 50) ∧
    (0:ℚ) ≤ RiskManager.calculate_qty ⟨100, 2/1000⟩ 50 :=
  ⟨(C9_qty_total ⟨100, 2/1000⟩ 50).2.1 (by norm_num),
   (C9_qty_total ⟨100, 2/1000⟩ 50).2.2 (by norm_num) (by norm_num)⟩

/-! ## Helper lemmas about the two trading loops -/

theorem execute_trade_last_signal (rm : RiskManager) (st : TraderState) (sig : ℤ)
    (price : ℚ) (bp : Option AlpacaPosition) :
    ((LiveTrader.execute_trade rm st sig price bp true).1).last_signal = sig := by
  simp only [LiveTrader.execute_trade]
  rcases bp with _ | p <;> split_ifs <;> rfl

theorem execute_trade_same_signal (rm : RiskManager) (st : TraderState) (sig : ℤ)
    (price : ℚ) (ok : Bool) (h : st.last_signal = sig) :
    LiveTrader.execute_trade rm st sig price st.position ok = (st, []) := by
  simp only [LiveTrader.execute_trade]
  rw [if_neg (by rintro ⟨h2, hne⟩; rw [h, h2] at hne; exact hne rfl),
    if_neg (by rintro ⟨h1, hne⟩; rw [h, h1] at hne; exact hne rfl),
    if_neg (by rintro ⟨h0, hne⟩; rw [h, h0] at hne; exact hne rfl), ← h]

theorem step_prev_signal (live : Bool) (st : ExecState) (sig : ℤ) (price : ℚ)
    (cp : Option BrokerPosition) (ok : Bool) :
    ((run_live_trading_step live st sig price cp ok).1).prev_signal = some sig := by
  unfold run_live_trading_step
  by_cases h : st.prev_signal = some sig
  · rw [if_pos h]
    exact h
  · rw [if_neg h]
    rcases cp with _ | pos <;> rcases hot : st.open_trade with _ | ot <;>
      simp only [hot] <;> split_ifs <;> rfl

theorem step_same_signal (live : Bool) (st : ExecState) (sig : ℤ) (price : ℚ)
    (cp : Option BrokerPosition) (ok : Bool) (h : st.prev_signal = some sig) :
    run_live_trading_step live st sig price cp ok = (st, []) := by
  unfold run_live_trading_step
  rw [if_pos h]

theorem step_rejected (live : Bool) (st : ExecState) (sig : ℤ) (price : ℚ)
    (cp : Option BrokerPosition) (h : st.prev_signal ≠ some sig) :
    run_live_trading_step live st sig price cp false
      = ({ st with prev_signal := some sig }, []) := by
  unfold run_live_trading_step
  rw [if_neg h]
  rcases cp with _ | pos <;> rcases hot : st.open_trade with _ | ot <;>
    simp only [hot] <;> split_ifs <;> first
    | rfl
    | contradiction

/-! ## Claims about the trading loops -/

/-- C1, counterexample: in the source, the risk assessment fails by
*raising* — `MonteCarlo.__init__` string-indexes the bare ndarray that
`_risk_management_check` hands it, before any cvar exists (first
conjunct).  The iteration is therefore abandoned with no action: with an
open long position and an exit signal, no exit of any kind occurs (second
conjunct) — the failed risk step blocks the exit path, contrary to the
claim.  The third conjunct records that even the gate-passed path could
never act: the trade call at line 152 omits `current_price`, so binding
its arguments raises `TypeError`. -/
theorem C1_counterexample :
    LiveTrader.risk_management_check_actual (fun _ => false)
      = Except.error PyError.indexError ∧
    LiveTrader.start_iteration_actual ⟨100, 2/1000⟩ ⟨2, some ⟨PosSide.long⟩⟩ true true
        (fun _ => false) true 0 50 (some ⟨PosSide.long⟩) true
      = (⟨2, some ⟨PosSide.long⟩⟩, []) ∧
    pyBindArgs 2 1 = Except.error PyError.typeError :=
  ⟨rfl, rfl, rfl⟩

/-- C1, amended: every iteration of `LiveTrader.start` that reaches the
risk-management step performs no trading action at all and leaves the
state unchanged — the step raises inside `MonteCarlo` (the ndarray is
string-indexed) before the cvar comparison can run, the per-iteration
`except` swallows the exception, and neither a new entry nor any exit
happens; on the counterfactual gate-passed path the trade call itself
raises `TypeError` (`current_price` omitted), so the loop as written
never trades.  In particular the scenario "risk step failed while FLAT
with a LONG signal" yields no action, and a failed risk step blocks exits
exactly as it blocks entries. -/
theorem C1_no_action_ever (rm : RiskManager) (st : TraderState)
    (market_open has_data : Bool) (onCol : List ℚ → Bool) (has_signals : Bool)
    (signal : ℤ) (price : ℚ) (bp : Option AlpacaPosition) (ok : Bool) :
    LiveTrader.start_iteration_actual rm st market_open has_data onCol has_signals
      signal price bp ok = (st, []) := by
  unfold LiveTrader.start_iteration_actual LiveTrader.risk_management_check_actual
    pyGetItem ndarrayColumns
  cases market_open <;> cases has_data <;> rfl

/-- C2, counterexample: in the executor loop the signal de-duplication
`continue` runs *before* the stop-loss check.  With an open trade whose
stop (49) is crossed (price 48) but an unchanged signal
(`prev_signal = some 1 = last_signal`), the iteration does nothing: the
stop-loss exit does not fire, contrary to "evaluated before signal
de-duplication … regardless of signal". -/
theorem C2_counterexample :
    run_live_trading_step true ⟨some 1, some ⟨1000, 50, 49, 52⟩, []⟩ 1 48 (some ⟨1000⟩)
        true
      = (⟨some 1, some ⟨1000, 50, 49, 52⟩, []⟩, []) ∧
    (48:ℚ) ≤ 49 := by
  exact ⟨by norm_num [run_live_trading_step], by norm_num⟩

/-- C2, amended: the stop-loss check runs after de-duplication but before
the entry logic.  When the signal has *changed* and the stop is crossed
with an open position, the stop exit fires — the open trade is cleared, a
`stop_loss` record is appended, and the only order of the iteration is
the closing sell (no re-entry).  When the signal is unchanged, the whole
iteration, stop-loss check included, is skipped. -/
theorem C2_stop_precedence :
    (∀ (live : Bool) (st : ExecState) (sig : ℤ) (price : ℚ) (pos : BrokerPosition)
        (ot : OpenTrade), st.prev_signal ≠ some sig → st.open_trade = some ot →
        price ≤ ot.stop_price →
      run_live_trading_step live st sig price (some pos) true
        = ((⟨some sig, none, st.trade_log
              ++ [⟨OrderSide.sell, ot.notional, price, TradeMode.stop_loss_mode⟩]⟩ :
                ExecState),
           [⟨ot.notional, OrderSide.sell⟩])) ∧
    (∀ (live : Bool) (st : ExecState) (sig : ℤ) (price : ℚ)
        (cp : Option BrokerPosition) (ok : Bool), st.prev_signal = some sig →
      run_live_trading_step live st sig price cp ok = (st, [])) := by
  constructor
  · intro live st sig price pos ot hsig hot hstop
    unfold run_live_trading_step
    rw [if_neg hsig]
    simp only [hot]
    rw [if_pos hstop]
    rfl
  · intro live st sig price cp ok h
    exact step_same_signal live st sig price cp ok h

/-- C2, witness for the amended theorem at a concrete input. -/
theorem C2_witness :
    run_live_trading_step true ⟨some 1, some ⟨1000, 50, 49, 52⟩, []⟩ (-1) 48
        (some ⟨1000⟩) true
      = ((⟨some (-1), none,
            [] ++ [⟨OrderSide.sell, 1000, 48, TradeMode.stop_loss_mode⟩]⟩ : ExecState),
         [⟨1000, OrderSide.sell⟩]) :=
  C2_stop_precedence.1 true ⟨some 1, some ⟨1000, 50, 49, 52⟩, []⟩ (-1) 48 ⟨1000⟩
    ⟨1000, 50, 49, 52⟩ (by decide) rfl (by norm_num)

/-- C3, counterexample: in the executor loop `prev_signal` is committed
*before* the order submission, so on a broker rejection the de-dup state
has already advanced to the intended new signal (from `some 0` to
`some 1`) — and the next iteration with the same signal does nothing, so
no retry happens, contrary to the claim. -/
theorem C3_counterexample :
    run_live_trading_step true ⟨some 0, none, []⟩ 1 50 none false
      = (⟨some 1, none, []⟩, []) ∧
    run_live_trading_step true ⟨some 1, none, []⟩ 1 50 none true
      = (⟨some 1, none, []⟩, []) ∧
    (⟨some 1, none, []⟩ : ExecState) ≠ ⟨some 0, none, []⟩ := by
  refine ⟨?_, ?_, by decide⟩ <;> norm_num [run_live_trading_step]

/-- C3, amended: on a broker rejection no TradeRecord is appended and the
open-trade record is unchanged in both loops, and in `LiveTrader` the
`last_signal` is also left unchanged (so that loop can retry); but in the
executor loop `prev_signal` is committed before submission, so it *is*
updated to the intended new signal and the next identical signal will not
retry. -/
theorem C3_rejection_semantics :
    (∀ (rm : RiskManager) (st : TraderState) (sig : ℤ) (price : ℚ)
        (bp : Option AlpacaPosition), (sig = 2 ∨ sig = 1) → st.last_signal ≠ sig →
      ((LiveTrader.execute_trade rm st sig price bp false).1.last_signal
          = st.last_signal ∧
       ∀ q sd, TradeAction.submitOrder q sd
          ∉ (LiveTrader.execute_trade rm st sig price bp false).2)) ∧
    (∀ (live : Bool) (st : ExecState) (sig : ℤ) (price : ℚ)
        (cp : Option BrokerPosition), st.prev_signal ≠ some sig →
      (run_live_trading_step live st sig price cp false).1.trade_log = st.trade_log ∧
      (run_live_trading_step live st sig price cp false).1.open_trade = st.open_trade ∧
      (run_live_trading_step live st sig price cp false).2 = [] ∧
      (run_live_trading_step live st sig price cp false).1.prev_signal = some sig) := by
  constructor
  · intro rm st sig price bp hsig hne
    rcases hsig with h2 | h1
    · subst h2
      simp only [LiveTrader.execute_trade]
      rw [if_pos ⟨by trivial, hne⟩]
      refine ⟨rfl, ?_⟩
      intro q sd
      rcases bp with _ | p
      · simp
      · by_cases hps : p.side = PosSide.short <;> simp [hps]
    · subst h1
      simp only [LiveTrader.execute_trade]
      rw [if_neg (by rintro ⟨hc, _⟩; norm_num at hc), if_pos ⟨by trivial, hne⟩]
      refine ⟨rfl, ?_⟩
      intro q sd
      rcases bp with _ | p
      · simp
      · by_cases hps : p.side = PosSide.long <;> simp [hps]
  · intro live st sig price cp h
    rw [step_rejected live st sig price cp h]
    exact ⟨rfl, rfl, rfl, rfl⟩

/-- C3, witness for the amended theorem at a concrete input. -/
theorem C3_witness :
    (LiveTrader.execute_trade ⟨100, 2/1000⟩ ⟨0, none⟩ 2 50 none false).1.last_signal
      = 0 ∧
    (run_live_trading_step true ⟨some 0, none, []⟩ 1 50 none false).1.prev_signal
      = some 1 :=
  ⟨(C3_rejection_semantics.1 ⟨100, 2/1000⟩ ⟨0, none⟩ 2 50 none (Or.inl rfl)
      (by decide)).1,
   (C3_rejection_semantics.2 true ⟨some 0, none, []⟩ 1 50 none (by decide)).2.2.2⟩

/-- C4: signal de-duplication.  In both loops, feeding the same unchanged
signal in the immediately following iteration is a no-op: no order is
submitted and the state is unchanged.  (For `LiveTrader` the first
iteration is taken with a successful submission and the broker position
unchanged; the executor loop needs no such proviso because its de-dup
state is committed unconditionally.) -/
theorem C4_signal_dedup :
    (∀ (rm : RiskManager) (st : TraderState) (sig : ℤ) (price price2 : ℚ)
        (bp : Option AlpacaPosition) (ok2 : Bool),
      LiveTrader.execute_trade rm (LiveTrader.execute_trade rm st sig price bp true).1
          sig price2 ((LiveTrader.execute_trade rm st sig price bp true).1).position ok2
        = ((LiveTrader.execute_trade rm st sig price bp true).1, [])) ∧
    (∀ (live : Bool) (st : ExecState) (sig : ℤ) (price price2 : ℚ)
        (cp cp2 : Option BrokerPosition) (ok ok2 : Bool),
      run_live_trading_step live (run_live_trading_step live st sig price cp ok).1 sig
          price2 cp2 ok2
        = ((run_live_trading_step live st sig price cp ok).1, [])) := by
  constructor
  · intro rm st sig price price2 bp ok2
    exact execute_trade_same_signal rm _ sig price2 ok2
      (execute_trade_last_signal rm st sig price bp)
  · intro live st sig price price2 cp cp2 ok ok2
    exact step_same_signal live _ sig price2 cp2 ok2
      (step_prev_signal live st sig price cp ok)

/-- C7, counterexample: the executor entry from FLAT records a fixed
`$1000` notional (20 shares at price 50), not
`portfolio_value * max_risk_pct / price` (= 1/250 shares with the
repository defaults) — the claimed sizing formula does not govern this
entry. -/
theorem C7_counterexample :
    (run_live_trading_step true ⟨some 0, none, []⟩ 1 50 none true).1.open_trade
      = some ⟨1000, 50, 49, 52⟩ ∧
    (1000:ℚ) / 50 ≠ 100 * (2/1000) / 50 := by
  constructor
  · norm_num [run_live_trading_step]
  · norm_num

/-- C7, amended: every entry from FLAT (no broker position) on a changed
LONG signal at price `p` opens a trade of fixed notional `1000` with
`stop_price = p * (1 - 0.02)` and `target_price = p * (1 + 0.04)`, both
recorded atomically with the entry (the committed open trade always
carries both bounds); no risk-assessment precondition exists in this
loop, and the sizing is not `portfolio_value * max_risk_pct / p`. -/
theorem C7_entry_fixed_notional (live : Bool) (st : ExecState) (price : ℚ)
    (h : st.prev_signal ≠ some 1) :
    run_live_trading_step live st 1 price none true
      = ((⟨some 1, some ⟨1000, price, price * (1 - 2/100), price * (1 + 4/100)⟩,
            st.trade_log ++ [⟨OrderSide.buy, 1000, price,
              if live then TradeMode.live else TradeMode.paper⟩]⟩ : ExecState),
         [⟨1000, OrderSide.buy⟩]) := by
  unfold run_live_trading_step
  rw [if_neg h]
  rcases hot : st.open_trade with _ | ot <;> simp only [hot] <;> rfl

/-- C7, witness for the amended theorem at a concrete input. -/
theorem C7_witness :
    run_live_trading_step true ⟨some 0, none, []⟩ 1 50 none true
      = ((⟨some 1, some ⟨1000, 50, 50 * (1 - 2/100), 50 * (1 + 4/100)⟩,
            [] ++ [⟨OrderSide.buy, 1000, 50, TradeMode.live⟩]⟩ : ExecState),
         [⟨1000, OrderSide.buy⟩]) :=
  C7_entry_fixed_notional true ⟨some 0, none, []⟩ 50 (by decide)
